import Mathlib

/-!
Shallow embedding of the trade reconciler of `bybit_testnet_exec_to_sheets.py`
(`parse_executions_to_trades` and the timestamp sort performed by
`fetch_bybit_executions`).

Python `Decimal` arithmetic is modelled by exact rational arithmetic (`ℚ`);
`Decimal.quantize(..., ROUND_HALF_UP)` is modelled by `quantize` below.
Timestamps are kept as raw milliseconds (`ℕ`); the script derives its
date/time strings from these values and nothing else.  The `closed_trade_data`
dict renders numbers as strings; here the quantized rational values are kept,
and `involved_exec_ids` is kept as the list of ids whose comma-join the script
stores.  Sets of execution ids are modelled as lists with membership.
-/

namespace Bybit

/-- One execution record, with the fields `parse_executions_to_trades` reads
(`execId`, `symbol`, `side`, `execQty`, `execPrice`, `execFee`, `execTime`,
`orderType`).  A missing `execId` is modelled as `""` (both `None` and `""`
are falsy for the script's `not exec_id` check); `side` is kept as the raw
string, as in the source. -/
structure Fill where
  execId : String
  symbol : String
  side : String
  execQty : ℚ
  execPrice : ℚ
  execFee : ℚ
  execTime : ℕ
  orderType : String
deriving DecidableEq, Repr

/-- The per-symbol open-position dict built by `parse_executions_to_trades`,
field for field. -/
structure OpenPos where
  side : String
  total_qty : ℚ
  total_entry_value : ℚ
  total_entry_fees : ℚ
  first_entry_ts_ms : ℕ
  last_entry_ts_ms : ℕ
  entry_exec_ids : List String
  accum_exit_value : ℚ
  accum_exit_fees : ℚ
  exit_exec_ids : List String
  last_exit_ts_ms : ℕ
  last_exit_order_type : String
deriving DecidableEq, Repr

/-- The `closed_trade_data` record.  `entry_ts_ms`/`exit_ts_ms` stand for the
formatted entry/exit date-time strings (derived from exactly these
timestamps); numeric fields carry the quantized values whose decimal
rendering the script stores. -/
structure ClosedTrade where
  entry_ts_ms : ℕ
  exit_ts_ms : ℕ
  pair : String
  type : String
  entry_price_avg : ℚ
  volume_coins : ℚ
  commission_entry : ℚ
  commission_exit : ℚ
  exit_method : String
  exit_price_avg : ℚ
  involved_exec_ids : List String
deriving DecidableEq, Repr

/-- The constant `QTY_TOLERANCE = Decimal("1e-9")`. -/
def QTY_TOLERANCE : ℚ := 1 / 1000000000

/-- Model of `Decimal.quantize` with `ROUND_HALF_UP` (ties away from zero) at `d`
decimal places. -/
def quantize (d : ℕ) (x : ℚ) : ℚ :=
  if 0 ≤ x then (⌊x * 10 ^ d + 1 / 2⌋ : ℚ) / 10 ^ d
  else -((⌊-x * 10 ^ d + 1 / 2⌋ : ℚ) / 10 ^ d)

/-- The mutable state of one `parse_executions_to_trades` run:
`closed_trades`, the `open_positions` dict (assoc list keyed by symbol) and
`processed_exec_ids_in_run`. -/
structure RState where
  closed_trades : List ClosedTrade
  open_positions : List (String × OpenPos)
  processed_exec_ids : List String
deriving DecidableEq, Repr

/-- Dict update `open_positions[symbol] = pos`. -/
def setPos (symbol : String) (pos : OpenPos) (m : List (String × OpenPos)) :
    List (String × OpenPos) :=
  (symbol, pos) :: m.filter (fun q => q.1 ≠ symbol)

/-- Dict removal `del open_positions[symbol]`. -/
def delPos (symbol : String) (m : List (String × OpenPos)) :
    List (String × OpenPos) :=
  m.filter (fun q => q.1 ≠ symbol)

/-- The dict literal that opens a brand-new position from a fill (the
`if not pos` branch). -/
def initial_position (f : Fill) : OpenPos :=
  { side := f.side
    total_qty := f.execQty
    total_entry_value := f.execQty * f.execPrice
    total_entry_fees := f.execFee
    first_entry_ts_ms := f.execTime
    last_entry_ts_ms := f.execTime
    entry_exec_ids := [f.execId]
    accum_exit_value := 0
    accum_exit_fees := 0
    exit_exec_ids := []
    last_exit_ts_ms := 0
    last_exit_order_type := "" }

/-- The same-side branch: accumulate quantity, entry value and fees. -/
def increase_position (pos : OpenPos) (f : Fill) : OpenPos :=
  { pos with
    total_qty := pos.total_qty + f.execQty
    total_entry_value := pos.total_entry_value + f.execQty * f.execPrice
    total_entry_fees := pos.total_entry_fees + f.execFee
    last_entry_ts_ms := max pos.last_entry_ts_ms f.execTime
    entry_exec_ids := pos.entry_exec_ids ++ [f.execId] }

/-- Building `closed_trade_data` at full close, from the already-reduced
position, the closing fill's `closed_qty` and the `proportion_closed`
computed in the same iteration. -/
def make_closed_trade (symbol : String) (pos : OpenPos)
    (closed_qty proportion_closed : ℚ) : ClosedTrade :=
  let avg_entry_price :=
    if 0 < closed_qty then (pos.total_entry_value + pos.total_entry_fees) / closed_qty else 0
  let avg_exit_price :=
    if 0 < closed_qty then pos.accum_exit_value / closed_qty else 0
  { entry_ts_ms := pos.first_entry_ts_ms
    exit_ts_ms := pos.last_exit_ts_ms
    pair := symbol
    type := if pos.side = "Buy" then "Лонг" else "Шорт"
    entry_price_avg := quantize 4 avg_entry_price
    volume_coins := quantize 8 closed_qty
    commission_entry :=
      quantize 4 (pos.total_entry_fees + pos.total_entry_fees * proportion_closed)
    commission_exit := quantize 4 pos.accum_exit_fees
    exit_method := pos.last_exit_order_type
    exit_price_avg := quantize 4 avg_exit_price
    involved_exec_ids := pos.entry_exec_ids ++ pos.exit_exec_ids }

/-- The position seeded by the residual quantity of a flipping fill, with the
fill's fee prorated to the residual. -/
def flip_position (f : Fill) (remaining_exec_qty : ℚ) : OpenPos :=
  { side := f.side
    total_qty := remaining_exec_qty
    total_entry_value := remaining_exec_qty * f.execPrice
    total_entry_fees :=
      if 0 < f.execQty then f.execFee / f.execQty * remaining_exec_qty else 0
    first_entry_ts_ms := f.execTime
    last_entry_ts_ms := f.execTime
    entry_exec_ids := [f.execId]
    accum_exit_value := 0
    accum_exit_fees := 0
    exit_exec_ids := []
    last_exit_ts_ms := 0
    last_exit_order_type := "" }

/-- Exit-side accumulation on the open position (`accum_exit_value += closed_qty *
exec_price`, `accum_exit_fees += exec_fee`, append the exit id, advance the
exit timestamp, remember the order type). -/
def exit_position (pos : OpenPos) (f : Fill) (closed_qty : ℚ) : OpenPos :=
  { pos with
    accum_exit_value := pos.accum_exit_value + closed_qty * f.execPrice
    accum_exit_fees := pos.accum_exit_fees + f.execFee
    exit_exec_ids := pos.exit_exec_ids ++ [f.execId]
    last_exit_ts_ms := max pos.last_exit_ts_ms f.execTime
    last_exit_order_type := f.orderType }

/-- Proportional reduction of the position by `closed_qty` (with
`proportion_closed = closed_qty / total_qty` computed before the reduction). -/
def reduce_position (pos1 : OpenPos) (closed_qty : ℚ) : OpenPos :=
  { pos1 with
    total_qty := pos1.total_qty - closed_qty
    total_entry_value :=
      pos1.total_entry_value - pos1.total_entry_value * (closed_qty / pos1.total_qty)
    total_entry_fees :=
      pos1.total_entry_fees - pos1.total_entry_fees * (closed_qty / pos1.total_qty) }

/-- The opposite-side branch of the loop body: match `closed_qty`, accumulate
exit data, reduce the position proportionally, emit a `ClosedTrade` when the
remaining quantity falls within `QTY_TOLERANCE`, and handle the flip. -/
def close_against (st1 : RState) (f : Fill) (pos : OpenPos) : RState :=
  let closed_qty := min f.execQty pos.total_qty
  if 0 < closed_qty then
    let pos1 := exit_position pos f closed_qty
    let proportion_closed := closed_qty / pos1.total_qty
    let pos2 := reduce_position pos1 closed_qty
    let afterClose : RState :=
      if pos2.total_qty ≤ QTY_TOLERANCE then
        { st1 with
          closed_trades :=
            st1.closed_trades ++ [make_closed_trade f.symbol pos2 closed_qty proportion_closed]
          open_positions := delPos f.symbol st1.open_positions }
      else
        { st1 with open_positions := setPos f.symbol pos2 st1.open_positions }
    let remaining_exec_qty := f.execQty - closed_qty
    if QTY_TOLERANCE < remaining_exec_qty then
      { afterClose with
        open_positions :=
          setPos f.symbol (flip_position f remaining_exec_qty) afterClose.open_positions }
    else afterClose
  else st1

/-- A fill failing the core-data check
`not symbol or not side or exec_qty <= 0 or exec_price <= 0 or exec_time == 0`. -/
def invalid_fill (f : Fill) : Prop :=
  f.symbol = "" ∨ f.side = "" ∨ f.execQty ≤ 0 ∨ f.execPrice ≤ 0 ∨ f.execTime = 0

instance (f : Fill) : Decidable (invalid_fill f) := by
  unfold invalid_fill; infer_instance

/-- One iteration of the `for exec_record in executions` loop.  (Marking the
fill as processed and acting on the position commute, since the skip test has
already been passed; the id is recorded first, as in the source.) -/
def process_execution (existing_ids : List String) (st : RState) (f : Fill) :
    RState :=
  if f.execId = "" ∨ f.execId ∈ existing_ids ∨ f.execId ∈ st.processed_exec_ids then st
  else if invalid_fill f then st
  else
    match st.open_positions.lookup f.symbol with
    | none =>
        { st with
          processed_exec_ids := f.execId :: st.processed_exec_ids
          open_positions := setPos f.symbol (initial_position f) st.open_positions }
    | some pos =>
        if f.side = pos.side then
          { st with
            processed_exec_ids := f.execId :: st.processed_exec_ids
            open_positions := setPos f.symbol (increase_position pos f) st.open_positions }
        else
          close_against
            { st with processed_exec_ids := f.execId :: st.processed_exec_ids } f pos

/-- Empty state at the top of `parse_executions_to_trades`. -/
def initState : RState := ⟨[], [], []⟩

/-- The reconciler `parse_executions_to_trades(executions, existing_ids)`: fold the loop body
over the execution list.  The script returns `closed_trades`; the final
`open_positions` and `processed_exec_ids_in_run` are kept for stating
invariants. -/
def parse_executions_to_trades (executions : List Fill)
    (existing_ids : List String) : RState :=
  executions.foldl (process_execution existing_ids) initState

/-- The sort `fetch_bybit_executions` applies before returning:
`sorted(all_results, key=lambda x: int(x.get("execTime", 0)))` (a stable
ascending sort on `execTime`). -/
def sort_executions_by_time (l : List Fill) : List Fill :=
  l.mergeSort (fun a b => decide (a.execTime ≤ b.execTime))

/-- All execution ids involved in a list of emitted trades (the ids the
caller's dedup column would accumulate). -/
def involvedAll (ts : List ClosedTrade) : List String :=
  (ts.map (fun t => t.involved_exec_ids)).flatten

/-- All execution ids recorded in the open-position map. -/
def posIds (m : List (String × OpenPos)) : List String :=
  (m.map (fun p => p.2.entry_exec_ids ++ p.2.exit_exec_ids)).flatten

/-! ### Association-list (dict) lemmas -/

theorem lookup_cons_ne (k s : String) (v : OpenPos) (t : List (String × OpenPos))
    (h : s ≠ k) : ((k, v) :: t).lookup s = t.lookup s := by
  simp [List.lookup_cons, beq_eq_false_iff_ne.2 h]

theorem lookup_delPos_ne (s s' : String) (m : List (String × OpenPos))
    (h : s' ≠ s) : (delPos s m).lookup s' = m.lookup s' := by
  induction m with
  | nil => rfl
  | cons q t ih =>
    cases q with
    | mk k v =>
      by_cases hk : k = s
      · subst hk
        simpa [delPos, List.filter_cons, lookup_cons_ne _ _ _ _ h] using ih
      · simp only [delPos, List.filter_cons] at ih ⊢
        rw [if_pos (by simp [hk])]
        by_cases hs : s' = k
        · subst hs; simp
        · rw [lookup_cons_ne _ _ _ _ hs, lookup_cons_ne _ _ _ _ hs]
          exact ih

theorem lookup_delPos_self (s : String) (m : List (String × OpenPos)) :
    (delPos s m).lookup s = none := by
  induction m with
  | nil => rfl
  | cons q t ih =>
    cases q with
    | mk k v =>
      by_cases hk : k = s
      · subst hk
        simpa [delPos, List.filter_cons] using ih
      · simp only [delPos, List.filter_cons] at ih ⊢
        rw [if_pos (by simp [hk])]
        rw [lookup_cons_ne _ _ _ _ (fun h => hk h.symm)]
        exact ih

theorem lookup_setPos_self (s : String) (p : OpenPos) (m : List (String × OpenPos)) :
    (setPos s p m).lookup s = some p := by
  simp [setPos, List.lookup_cons]

theorem lookup_setPos_ne (s s' : String) (p : OpenPos) (m : List (String × OpenPos))
    (h : s' ≠ s) : (setPos s p m).lookup s' = m.lookup s' := by
  rw [setPos, lookup_cons_ne _ _ _ _ h]
  exact lookup_delPos_ne s s' m h

theorem mem_delPos (s : String) (p : String × OpenPos) (m : List (String × OpenPos))
    (h : p ∈ delPos s m) : p ∈ m :=
  List.mem_of_mem_filter h

theorem mem_setPos (s : String) (q : OpenPos) (p : String × OpenPos)
    (m : List (String × OpenPos)) (h : p ∈ setPos s q m) : p = (s, q) ∨ p ∈ m := by
  rcases List.mem_cons.1 h with h | h
  · exact Or.inl h
  · exact Or.inr (List.mem_of_mem_filter h)

theorem mem_delPos_of_mem (s : String) (p : String × OpenPos) (m : List (String × OpenPos))
    (hp : p ∈ m) (hne : p.1 ≠ s) : p ∈ delPos s m :=
  List.mem_filter.2 ⟨hp, by simpa using hne⟩

theorem lookup_mem {m : List (String × OpenPos)} {s : String} {p : OpenPos}
    (h : m.lookup s = some p) : (s, p) ∈ m := by
  rcases List.lookup_eq_some_iff.1 h with ⟨l₁, l₂, rfl, -⟩
  simp

theorem nodupKeys_setPos (s : String) (p : OpenPos) (m : List (String × OpenPos))
    (h : (m.map Prod.fst).Nodup) : ((setPos s p m).map Prod.fst).Nodup := by
  simp only [setPos, List.map_cons, List.nodup_cons]
  constructor
  · intro hs
    rcases List.mem_map.1 hs with ⟨q, hq, hq1⟩
    have := (List.mem_filter.1 hq).2
    simp [hq1] at this
  · exact h.sublist ((List.filter_sublist m).map Prod.fst)

theorem nodupKeys_delPos (s : String) (m : List (String × OpenPos))
    (h : (m.map Prod.fst).Nodup) : ((delPos s m).map Prod.fst).Nodup :=
  h.sublist ((List.filter_sublist m).map Prod.fst)

/-! ### Step lemmas for the reconciler loop -/

theorem process_execution_skip (e : List String) (st : RState) (f : Fill)
    (h : f.execId = "" ∨ f.execId ∈ e ∨ f.execId ∈ st.processed_exec_ids) :
    process_execution e st f = st := by
  unfold process_execution
  rw [if_pos h]

theorem process_execution_invalid (e : List String) (st : RState) (f : Fill)
    (h : invalid_fill f) : process_execution e st f = st := by
  by_cases h1 : f.execId = "" ∨ f.execId ∈ e ∨ f.execId ∈ st.processed_exec_ids
  · exact process_execution_skip e st f h1
  · unfold process_execution
    rw [if_neg h1, if_pos h]

/-- Branch equation: no open position for the symbol. -/
theorem process_execution_none (e : List String) (st : RState) (f : Fill)
    (h1 : ¬ (f.execId = "" ∨ f.execId ∈ e ∨ f.execId ∈ st.processed_exec_ids))
    (h2 : ¬ invalid_fill f)
    (hl : st.open_positions.lookup f.symbol = none) :
    process_execution e st f =
      { st with
        processed_exec_ids := f.execId :: st.processed_exec_ids
        open_positions := setPos f.symbol (initial_position f) st.open_positions } := by
  simp only [process_execution]
  rw [if_neg h1, if_neg h2, hl]

/-- Branch equation: open position, same side. -/
theorem process_execution_same_side (e : List String) (st : RState) (f : Fill)
    (pos : OpenPos)
    (h1 : ¬ (f.execId = "" ∨ f.execId ∈ e ∨ f.execId ∈ st.processed_exec_ids))
    (h2 : ¬ invalid_fill f)
    (hl : st.open_positions.lookup f.symbol = some pos)
    (hside : f.side = pos.side) :
    process_execution e st f =
      { st with
        processed_exec_ids := f.execId :: st.processed_exec_ids
        open_positions := setPos f.symbol (increase_position pos f) st.open_positions } := by
  simp only [process_execution]
  rw [if_neg h1, if_neg h2, hl]
  exact if_pos hside

/-- Branch equation: open position, opposite side. -/
theorem process_execution_opposite (e : List String) (st : RState) (f : Fill)
    (pos : OpenPos)
    (h1 : ¬ (f.execId = "" ∨ f.execId ∈ e ∨ f.execId ∈ st.processed_exec_ids))
    (h2 : ¬ invalid_fill f)
    (hl : st.open_positions.lookup f.symbol = some pos)
    (hside : ¬ f.side = pos.side) :
    process_execution e st f =
      close_against
        { st with processed_exec_ids := f.execId :: st.processed_exec_ids } f pos := by
  simp only [process_execution]
  rw [if_neg h1, if_neg h2, hl]
  exact if_neg hside

theorem close_against_processed (st1 : RState) (f : Fill) (pos : OpenPos) :
    (close_against st1 f pos).processed_exec_ids = st1.processed_exec_ids := by
  simp only [close_against]
  split_ifs <;> rfl

theorem close_against_trades_extend (st1 : RState) (f : Fill) (pos : OpenPos)
    (ts : List ClosedTrade) (h : st1.closed_trades = ts) :
    ts <+: (close_against st1 f pos).closed_trades := by
  subst h
  simp only [close_against]
  split_ifs <;> first | exact List.prefix_refl _ | exact ⟨_, rfl⟩

theorem process_execution_processed_sub (e : List String) (st : RState) (f : Fill) :
    st.processed_exec_ids ⊆ (process_execution e st f).processed_exec_ids := by
  simp only [process_execution]
  split
  · exact fun x hx => hx
  split
  · exact fun x hx => hx
  split
  · exact fun x hx => List.mem_cons_of_mem _ hx
  split
  · exact fun x hx => List.mem_cons_of_mem _ hx
  · rw [close_against_processed]
    exact fun x hx => List.mem_cons_of_mem _ hx

theorem process_execution_trades_extend (e : List String) (st : RState) (f : Fill) :
    st.closed_trades <+: (process_execution e st f).closed_trades := by
  simp only [process_execution]
  split
  · exact List.prefix_refl _
  split
  · exact List.prefix_refl _
  split
  · exact List.prefix_refl _
  split
  · exact List.prefix_refl _
  · exact close_against_trades_extend _ _ _ _ rfl

theorem process_execution_processes (e : List String) (st : RState) (f : Fill)
    (hid : f.execId ≠ "") (he : f.execId ∉ e) (hv : ¬ invalid_fill f) :
    f.execId ∈ (process_execution e st f).processed_exec_ids := by
  by_cases h1 : f.execId = "" ∨ f.execId ∈ e ∨ f.execId ∈ st.processed_exec_ids
  · rw [process_execution_skip e st f h1]
    rcases h1 with h | h | h
    · exact absurd h hid
    · exact absurd h he
    · exact h
  · simp only [process_execution]
    rw [if_neg h1, if_neg hv]
    split
    · exact List.mem_cons_self _ _
    split
    · exact List.mem_cons_self _ _
    · rw [close_against_processed]
      exact List.mem_cons_self _ _

theorem foldl_processed_sub (e : List String) (l : List Fill) (st : RState) :
    st.processed_exec_ids ⊆ (l.foldl (process_execution e) st).processed_exec_ids := by
  induction l generalizing st with
  | nil => exact fun x hx => hx
  | cons f t ih =>
    exact fun x hx =>
      ih (process_execution e st f) (process_execution_processed_sub e st f hx)

theorem foldl_trades_extend (e : List String) (l : List Fill) (st : RState) :
    st.closed_trades <+: (l.foldl (process_execution e) st).closed_trades := by
  induction l generalizing st with
  | nil => exact List.prefix_refl _
  | cons f t ih =>
    exact (process_execution_trades_extend e st f).trans (ih (process_execution e st f))

theorem foldl_processes (e : List String) (l : List Fill) (st : RState) (f : Fill)
    (hf : f ∈ l) (hid : f.execId ≠ "") (he : f.execId ∉ e) (hv : ¬ invalid_fill f) :
    f.execId ∈ (l.foldl (process_execution e) st).processed_exec_ids := by
  induction l generalizing st with
  | nil => cases hf
  | cons g t ih =>
    rcases List.mem_cons.1 hf with rfl | hf
    · exact foldl_processed_sub e t _ (process_execution_processes e st f hid he hv)
    · exact ih (process_execution e st g) hf

/-- The combined condition under which one loop iteration is a no-op for any
state whose processed-list is irrelevant: empty id, already-seen id, or
invalid core data. -/
def skip_fill (ids : List String) (f : Fill) : Prop :=
  f.execId = "" ∨ f.execId ∈ ids ∨ invalid_fill f

theorem process_execution_skip_fill (e : List String) (st : RState) (f : Fill)
    (h : skip_fill e f) : process_execution e st f = st := by
  rcases h with h | h | h
  · exact process_execution_skip e st f (Or.inl h)
  · exact process_execution_skip e st f (Or.inr (Or.inl h))
  · exact process_execution_invalid e st f h

theorem foldl_skip_all (e : List String) (l : List Fill) (st : RState)
    (h : ∀ f ∈ l, skip_fill e f) : l.foldl (process_execution e) st = st := by
  induction l with
  | nil => rfl
  | cons f t ih =>
    rw [List.foldl_cons, process_execution_skip_fill e st f (h f (List.mem_cons_self f t))]
    exact ih fun g hg => h g (List.mem_cons_of_mem f hg)

/-! ### Projection lemmas -/

@[simp] theorem exit_position_total_qty (pos : OpenPos) (f : Fill) (c : ℚ) :
    (exit_position pos f c).total_qty = pos.total_qty := rfl

@[simp] theorem exit_position_side (pos : OpenPos) (f : Fill) (c : ℚ) :
    (exit_position pos f c).side = pos.side := rfl

@[simp] theorem exit_position_total_entry_value (pos : OpenPos) (f : Fill) (c : ℚ) :
    (exit_position pos f c).total_entry_value = pos.total_entry_value := rfl

@[simp] theorem exit_position_total_entry_fees (pos : OpenPos) (f : Fill) (c : ℚ) :
    (exit_position pos f c).total_entry_fees = pos.total_entry_fees := rfl

@[simp] theorem exit_position_entry_exec_ids (pos : OpenPos) (f : Fill) (c : ℚ) :
    (exit_position pos f c).entry_exec_ids = pos.entry_exec_ids := rfl

@[simp] theorem exit_position_exit_exec_ids (pos : OpenPos) (f : Fill) (c : ℚ) :
    (exit_position pos f c).exit_exec_ids = pos.exit_exec_ids ++ [f.execId] := rfl

@[simp] theorem exit_position_accum_exit_value (pos : OpenPos) (f : Fill) (c : ℚ) :
    (exit_position pos f c).accum_exit_value = pos.accum_exit_value + c * f.execPrice := rfl

@[simp] theorem exit_position_accum_exit_fees (pos : OpenPos) (f : Fill) (c : ℚ) :
    (exit_position pos f c).accum_exit_fees = pos.accum_exit_fees + f.execFee := rfl

@[simp] theorem exit_position_last_exit_order_type (pos : OpenPos) (f : Fill) (c : ℚ) :
    (exit_position pos f c).last_exit_order_type = f.orderType := rfl

@[simp] theorem exit_position_first_entry_ts_ms (pos : OpenPos) (f : Fill) (c : ℚ) :
    (exit_position pos f c).first_entry_ts_ms = pos.first_entry_ts_ms := rfl

@[simp] theorem exit_position_last_exit_ts_ms (pos : OpenPos) (f : Fill) (c : ℚ) :
    (exit_position pos f c).last_exit_ts_ms = max pos.last_exit_ts_ms f.execTime := rfl

@[simp] theorem reduce_position_total_qty (pos1 : OpenPos) (c : ℚ) :
    (reduce_position pos1 c).total_qty = pos1.total_qty - c := rfl

@[simp] theorem reduce_position_side (pos1 : OpenPos) (c : ℚ) :
    (reduce_position pos1 c).side = pos1.side := rfl

@[simp] theorem reduce_position_total_entry_value (pos1 : OpenPos) (c : ℚ) :
    (reduce_position pos1 c).total_entry_value =
      pos1.total_entry_value - pos1.total_entry_value * (c / pos1.total_qty) := rfl

@[simp] theorem reduce_position_total_entry_fees (pos1 : OpenPos) (c : ℚ) :
    (reduce_position pos1 c).total_entry_fees =
      pos1.total_entry_fees - pos1.total_entry_fees * (c / pos1.total_qty) := rfl

@[simp] theorem reduce_position_entry_exec_ids (pos1 : OpenPos) (c : ℚ) :
    (reduce_position pos1 c).entry_exec_ids = pos1.entry_exec_ids := rfl

@[simp] theorem reduce_position_exit_exec_ids (pos1 : OpenPos) (c : ℚ) :
    (reduce_position pos1 c).exit_exec_ids = pos1.exit_exec_ids := rfl

@[simp] theorem reduce_position_accum_exit_value (pos1 : OpenPos) (c : ℚ) :
    (reduce_position pos1 c).accum_exit_value = pos1.accum_exit_value := rfl

@[simp] theorem reduce_position_accum_exit_fees (pos1 : OpenPos) (c : ℚ) :
    (reduce_position pos1 c).accum_exit_fees = pos1.accum_exit_fees := rfl

@[simp] theorem flip_position_side (f : Fill) (r : ℚ) :
    (flip_position f r).side = f.side := rfl

@[simp] theorem flip_position_total_qty (f : Fill) (r : ℚ) :
    (flip_position f r).total_qty = r := rfl

@[simp] theorem flip_position_entry_exec_ids (f : Fill) (r : ℚ) :
    (flip_position f r).entry_exec_ids = [f.execId] := rfl

@[simp] theorem flip_position_exit_exec_ids (f : Fill) (r : ℚ) :
    (flip_position f r).exit_exec_ids = [] := rfl

@[simp] theorem initial_position_side (f : Fill) :
    (initial_position f).side = f.side := rfl

@[simp] theorem initial_position_total_qty (f : Fill) :
    (initial_position f).total_qty = f.execQty := rfl

@[simp] theorem initial_position_entry_exec_ids (f : Fill) :
    (initial_position f).entry_exec_ids = [f.execId] := rfl

@[simp] theorem initial_position_exit_exec_ids (f : Fill) :
    (initial_position f).exit_exec_ids = [] := rfl

@[simp] theorem increase_position_side (pos : OpenPos) (f : Fill) :
    (increase_position pos f).side = pos.side := rfl

@[simp] theorem increase_position_total_qty (pos : OpenPos) (f : Fill) :
    (increase_position pos f).total_qty = pos.total_qty + f.execQty := rfl

@[simp] theorem increase_position_entry_exec_ids (pos : OpenPos) (f : Fill) :
    (increase_position pos f).entry_exec_ids = pos.entry_exec_ids ++ [f.execId] := rfl

@[simp] theorem increase_position_exit_exec_ids (pos : OpenPos) (f : Fill) :
    (increase_position pos f).exit_exec_ids = pos.exit_exec_ids := rfl

@[simp] theorem make_closed_trade_involved (s : String) (pos : OpenPos) (c pr : ℚ) :
    (make_closed_trade s pos c pr).involved_exec_ids =
      pos.entry_exec_ids ++ pos.exit_exec_ids := rfl

@[simp] theorem make_closed_trade_pair (s : String) (pos : OpenPos) (c pr : ℚ) :
    (make_closed_trade s pos c pr).pair = s := rfl

@[simp] theorem make_closed_trade_volume (s : String) (pos : OpenPos) (c pr : ℚ) :
    (make_closed_trade s pos c pr).volume_coins = quantize 8 c := rfl

@[simp] theorem make_closed_trade_type (s : String) (pos : OpenPos) (c pr : ℚ) :
    (make_closed_trade s pos c pr).type = if pos.side = "Buy" then "Лонг" else "Шорт" := rfl

@[simp] theorem make_closed_trade_exit_method (s : String) (pos : OpenPos) (c pr : ℚ) :
    (make_closed_trade s pos c pr).exit_method = pos.last_exit_order_type := rfl

/-! ### Closed forms for the three outcomes of an opposite-side fill -/

/-- The tolerance `QTY_TOLERANCE` is strictly positive. -/
theorem qty_tolerance_pos : (0 : ℚ) < QTY_TOLERANCE := by norm_num [QTY_TOLERANCE]

/-- Partial close: the matched quantity leaves more than the tolerance open, so
no trade is emitted and no flip happens; the reduced position is stored. -/
theorem close_against_reduce (st1 : RState) (f : Fill) (pos : OpenPos)
    (h0 : 0 < min f.execQty pos.total_qty)
    (hfull : QTY_TOLERANCE < pos.total_qty - min f.execQty pos.total_qty) :
    close_against st1 f pos =
      { st1 with
        open_positions :=
          setPos f.symbol
            (reduce_position (exit_position pos f (min f.execQty pos.total_qty))
              (min f.execQty pos.total_qty)) st1.open_positions } := by
  have hmin : min f.execQty pos.total_qty = f.execQty := by
    rcases min_cases f.execQty pos.total_qty with ⟨h1, -⟩ | ⟨h1, h2⟩
    · exact h1
    · exfalso
      rw [h1] at hfull
      have := qty_tolerance_pos
      linarith
  have hc1 : ¬ ((reduce_position (exit_position pos f (min f.execQty pos.total_qty))
      (min f.execQty pos.total_qty)).total_qty ≤ QTY_TOLERANCE) := by
    simp only [reduce_position_total_qty, exit_position_total_qty]
    linarith
  have hc2 : ¬ (QTY_TOLERANCE < f.execQty - min f.execQty pos.total_qty) := by
    rw [hmin]
    have := qty_tolerance_pos
    intro h
    linarith
  simp only [close_against]
  rw [if_pos h0, if_neg hc1, if_neg hc2]

/-- Full close without flip: the position's remaining quantity falls within the
tolerance and the fill has no residual beyond the tolerance; one trade is
emitted and the position is deleted. -/
theorem close_against_full (st1 : RState) (f : Fill) (pos : OpenPos)
    (h0 : 0 < min f.execQty pos.total_qty)
    (hfull : pos.total_qty - min f.execQty pos.total_qty ≤ QTY_TOLERANCE)
    (hrem : f.execQty - min f.execQty pos.total_qty ≤ QTY_TOLERANCE) :
    close_against st1 f pos =
      { st1 with
        closed_trades := st1.closed_trades ++
          [make_closed_trade f.symbol
            (reduce_position (exit_position pos f (min f.execQty pos.total_qty))
              (min f.execQty pos.total_qty))
            (min f.execQty pos.total_qty)
            (min f.execQty pos.total_qty /
              (exit_position pos f (min f.execQty pos.total_qty)).total_qty)]
        open_positions := delPos f.symbol st1.open_positions } := by
  have hc1 : (reduce_position (exit_position pos f (min f.execQty pos.total_qty))
      (min f.execQty pos.total_qty)).total_qty ≤ QTY_TOLERANCE := by
    simp only [reduce_position_total_qty, exit_position_total_qty]
    linarith
  have hc2 : ¬ (QTY_TOLERANCE < f.execQty - min f.execQty pos.total_qty) := by
    intro h
    linarith
  simp only [close_against]
  rw [if_pos h0, if_pos hc1, if_neg hc2]

/-- Two entries of a key-nodup assoc list with the same key are equal. -/
theorem key_unique {m : List (String × OpenPos)} (hnd : (m.map Prod.fst).Nodup)
    {p q : String × OpenPos} (hp : p ∈ m) (hq : q ∈ m) (hk : p.1 = q.1) : p = q := by
  induction m with
  | nil => cases hp
  | cons r t ih =>
    simp only [List.map_cons, List.nodup_cons] at hnd
    rcases List.mem_cons.1 hp with hpr | hpt
    · rcases List.mem_cons.1 hq with hqr | hqt
      · rw [hpr, hqr]
      · exfalso
        apply hnd.1
        rw [hpr] at hk
        rw [hk]
        exact List.mem_map_of_mem Prod.fst hqt
    · rcases List.mem_cons.1 hq with hqr | hqt
      · exfalso
        apply hnd.1
        rw [hqr] at hk
        rw [← hk]
        exact List.mem_map_of_mem Prod.fst hpt
      · exact ih hnd.2 hpt hqt

theorem mem_involvedAll {ts : List ClosedTrade} {id : String} :
    id ∈ involvedAll ts ↔ ∃ t ∈ ts, id ∈ t.involved_exec_ids := by
  simp only [involvedAll]
  constructor
  · intro h
    rcases List.mem_flatten.1 h with ⟨l, hl, hid⟩
    rcases List.mem_map.1 hl with ⟨t, ht, rfl⟩
    exact ⟨t, ht, hid⟩
  · rintro ⟨t, ht, hid⟩
    exact List.mem_flatten.2 ⟨_, List.mem_map_of_mem _ ht, hid⟩

theorem involvedAll_append (ts us : List ClosedTrade) :
    involvedAll (ts ++ us) = involvedAll ts ++ involvedAll us := by
  simp [involvedAll]

theorem mem_posIds {m : List (String × OpenPos)} {id : String} :
    id ∈ posIds m ↔ ∃ p ∈ m, id ∈ p.2.entry_exec_ids ++ p.2.exit_exec_ids := by
  simp only [posIds]
  constructor
  · intro h
    rcases List.mem_flatten.1 h with ⟨l, hl, hid⟩
    rcases List.mem_map.1 hl with ⟨p, hp, rfl⟩
    exact ⟨p, hp, hid⟩
  · rintro ⟨p, hp, hid⟩
    exact List.mem_flatten.2 ⟨_, List.mem_map_of_mem _ hp, hid⟩

theorem mem_setPos_of_mem (s : String) (q : OpenPos) (p : String × OpenPos)
    (m : List (String × OpenPos)) (hp : p ∈ m) (hne : p.1 ≠ s) : p ∈ setPos s q m :=
  List.mem_cons_of_mem _ (mem_delPos_of_mem s p m hp hne)

theorem mem_setPos_self (s : String) (q : OpenPos) (m : List (String × OpenPos)) :
    (s, q) ∈ setPos s q m :=
  List.mem_cons_self _ _

/-- Flip: the fill's quantity exceeds the open quantity by more than the
tolerance; one trade is emitted and the residual opens a position in the
fill's direction. -/
theorem close_against_flip (st1 : RState) (f : Fill) (pos : OpenPos)
    (h0 : 0 < min f.execQty pos.total_qty)
    (hrem : QTY_TOLERANCE < f.execQty - min f.execQty pos.total_qty) :
    close_against st1 f pos =
      { st1 with
        closed_trades := st1.closed_trades ++
          [make_closed_trade f.symbol
            (reduce_position (exit_position pos f (min f.execQty pos.total_qty))
              (min f.execQty pos.total_qty))
            (min f.execQty pos.total_qty)
            (min f.execQty pos.total_qty /
              (exit_position pos f (min f.execQty pos.total_qty)).total_qty)]
        open_positions :=
          setPos f.symbol (flip_position f (f.execQty - min f.execQty pos.total_qty))
            (delPos f.symbol st1.open_positions) } := by
  have hmin : min f.execQty pos.total_qty = pos.total_qty := by
    rcases min_cases f.execQty pos.total_qty with ⟨h1, h2⟩ | ⟨h1, -⟩
    · exfalso
      rw [h1] at hrem
      have := qty_tolerance_pos
      linarith
    · exact h1
  have hc1 : (reduce_position (exit_position pos f (min f.execQty pos.total_qty))
      (min f.execQty pos.total_qty)).total_qty ≤ QTY_TOLERANCE := by
    simp only [reduce_position_total_qty, exit_position_total_qty]
    rw [hmin]
    have := qty_tolerance_pos
    linarith
  simp only [close_against]
  rw [if_pos h0, if_pos hc1, if_pos hrem]

/-! ### The run invariant -/

/-- Invariant maintained by every loop iteration: the position dict has
key-nodup entries, every stored position has strictly positive quantity, and
every processed execution id is recorded either in an emitted trade's
involved ids or in the open-position dict. -/
def Inv (st : RState) : Prop :=
  (st.open_positions.map Prod.fst).Nodup ∧
  (∀ p ∈ st.open_positions, 0 < p.2.total_qty) ∧
  (∀ id ∈ st.processed_exec_ids,
    id ∈ involvedAll st.closed_trades ∨ id ∈ posIds st.open_positions)

theorem inv_init : Inv initState := by
  refine ⟨by simp [initState], ?_, ?_⟩ <;> intro x hx <;> cases hx

/-- Coverage transfer: when the position at key `s` is transformed, ids that
were covered by the old dict stay covered, provided entries at other keys
survive and the ids of the old position at `s` are re-covered. -/
theorem cover_transfer {m : List (String × OpenPos)} (hnd : (m.map Prod.fst).Nodup)
    {s : String} {pos : OpenPos} (hl : m.lookup s = some pos)
    {m' : List (String × OpenPos)} {trInv : List String}
    (hold : ∀ p ∈ m, p.1 ≠ s → p ∈ m')
    (hposIn : ∀ id ∈ pos.entry_exec_ids ++ pos.exit_exec_ids, id ∈ trInv ∨ id ∈ posIds m')
    {id : String} (hid : id ∈ posIds m) : id ∈ trInv ∨ id ∈ posIds m' := by
  rcases mem_posIds.1 hid with ⟨p, hp, hpid⟩
  by_cases hk : p.1 = s
  · have : p = (s, pos) := key_unique hnd hp (lookup_mem hl) hk
    subst this
    exact hposIn id hpid
  · exact Or.inr (mem_posIds.2 ⟨p, hold p hp hk, hpid⟩)

theorem inv_step (e : List String) (st : RState) (f : Fill) (h : Inv st) :
    Inv (process_execution e st f) := by
  by_cases h1 : f.execId = "" ∨ f.execId ∈ e ∨ f.execId ∈ st.processed_exec_ids
  · rw [process_execution_skip e st f h1]; exact h
  by_cases h2 : invalid_fill f
  · rw [process_execution_invalid e st f h2]; exact h
  obtain ⟨hnd, hq, hcov⟩ := h
  have hqty : 0 < f.execQty := by
    rcases lt_or_le 0 f.execQty with h' | h'
    · exact h'
    · exact absurd (Or.inr (Or.inr (Or.inl h'))) h2
  rcases hl : st.open_positions.lookup f.symbol with _ | pos
  · -- no open position: a new one is created
    rw [process_execution_none e st f h1 h2 hl]
    refine ⟨nodupKeys_setPos _ _ _ hnd, ?_, ?_⟩
    · intro p hp
      rcases mem_setPos _ _ _ _ hp with rfl | hp'
      · simpa using hqty
      · exact hq p hp'
    · intro id hid
      have hnomem : ∀ p ∈ st.open_positions, p.1 ≠ f.symbol := by
        intro p hp heq
        have := List.lookup_eq_none_iff.1 hl p hp
        simp [heq] at this
      rcases List.mem_cons.1 hid with rfl | hid'
      · refine Or.inr (mem_posIds.2 ⟨(f.symbol, initial_position f), mem_setPos_self _ _ _, ?_⟩)
        simp [initial_position]
      · rcases hcov id hid' with hc | hc
        · exact Or.inl hc
        · rcases mem_posIds.1 hc with ⟨p, hp, hpid⟩
          exact Or.inr (mem_posIds.2
            ⟨p, mem_setPos_of_mem _ _ _ _ hp (hnomem p hp), hpid⟩)
  · have hmem : (f.symbol, pos) ∈ st.open_positions := lookup_mem hl
    have hpq : 0 < pos.total_qty := hq _ hmem
    by_cases hside : f.side = pos.side
    · -- same side: accumulation
      rw [process_execution_same_side e st f pos h1 h2 hl hside]
      refine ⟨nodupKeys_setPos _ _ _ hnd, ?_, ?_⟩
      · intro p hp
        rcases mem_setPos _ _ _ _ hp with rfl | hp'
        · simp only [increase_position_total_qty]
          positivity
        · exact hq p hp'
      · intro id hid
        rcases List.mem_cons.1 hid with rfl | hid'
        · refine Or.inr (mem_posIds.2
            ⟨(f.symbol, increase_position pos f), mem_setPos_self _ _ _, ?_⟩)
          simp
        · rcases hcov id hid' with hc | hc
          · exact Or.inl hc
          · refine cover_transfer hnd hl
              (fun p hp hne => mem_setPos_of_mem _ _ _ _ hp hne) ?_ hc
            intro i hi
            refine Or.inr (mem_posIds.2
              ⟨(f.symbol, increase_position pos f), mem_setPos_self _ _ _, ?_⟩)
            simp only [List.mem_append, increase_position_entry_exec_ids,
              increase_position_exit_exec_ids, List.mem_singleton] at hi ⊢
            tauto
    · -- opposite side: close against the position
      rw [process_execution_opposite e st f pos h1 h2 hl hside]
      have hmin0 : 0 < min f.execQty pos.total_qty := lt_min hqty hpq
      by_cases hfullc : QTY_TOLERANCE < pos.total_qty - min f.execQty pos.total_qty
      · -- partial close
        rw [close_against_reduce _ f pos hmin0 hfullc]
        have hq2 : 0 < (reduce_position (exit_position pos f (min f.execQty pos.total_qty))
            (min f.execQty pos.total_qty)).total_qty := by
          simp only [reduce_position_total_qty, exit_position_total_qty]
          have := qty_tolerance_pos
          linarith
        refine ⟨nodupKeys_setPos _ _ _ hnd, ?_, ?_⟩
        · intro p hp
          rcases mem_setPos _ _ _ _ hp with rfl | hp'
          · exact hq2
          · exact hq p hp'
        · intro id hid
          rcases List.mem_cons.1 hid with rfl | hid'
          · refine Or.inr (mem_posIds.2
              ⟨(f.symbol, _), mem_setPos_self _ _ _, ?_⟩)
            simp
          · rcases hcov id hid' with hc | hc
            · exact Or.inl hc
            · refine cover_transfer hnd hl
                (fun p hp hne => mem_setPos_of_mem _ _ _ _ hp hne) ?_ hc
              intro i hi
              refine Or.inr (mem_posIds.2
                ⟨(f.symbol, _), mem_setPos_self _ _ _, ?_⟩)
              simp only [List.mem_append, reduce_position_entry_exec_ids,
                reduce_position_exit_exec_ids, exit_position_entry_exec_ids,
                exit_position_exit_exec_ids, List.mem_singleton] at hi ⊢
              tauto
      · -- full close (with or without flip)
        have hfull : pos.total_qty - min f.execQty pos.total_qty ≤ QTY_TOLERANCE :=
          le_of_not_lt hfullc
        have htrdid : ∀ i, i ∈ pos.entry_exec_ids ++ pos.exit_exec_ids ∨ i = f.execId →
            i ∈ (make_closed_trade f.symbol
              (reduce_position (exit_position pos f (min f.execQty pos.total_qty))
                (min f.execQty pos.total_qty))
              (min f.execQty pos.total_qty)
              (min f.execQty pos.total_qty /
                (exit_position pos f (min f.execQty pos.total_qty)).total_qty)).involved_exec_ids := by
          intro i hi
          simp only [make_closed_trade_involved, reduce_position_entry_exec_ids,
            reduce_position_exit_exec_ids, exit_position_entry_exec_ids,
            exit_position_exit_exec_ids, List.mem_append, List.mem_singleton] at hi ⊢
          tauto
        by_cases hrem : QTY_TOLERANCE < f.execQty - min f.execQty pos.total_qty
        · -- flip
          rw [close_against_flip _ f pos hmin0 hrem]
          refine ⟨nodupKeys_setPos _ _ _ (nodupKeys_delPos _ _ hnd), ?_, ?_⟩
          · intro p hp
            rcases mem_setPos _ _ _ _ hp with rfl | hp'
            · simp only [flip_position_total_qty]
              have := qty_tolerance_pos
              linarith
            · exact hq p (mem_delPos _ _ _ hp')
          · intro id hid
            simp only [involvedAll_append]
            rcases List.mem_cons.1 hid with rfl | hid'
            · refine Or.inl (List.mem_append_right _ ?_)
              simp only [involvedAll, List.map_cons, List.map_nil, List.flatten_cons,
                List.flatten_nil, List.append_nil]
              exact htrdid f.execId (Or.inr rfl)
            · rcases hcov id hid' with hc | hc
              · exact Or.inl (List.mem_append_left _ hc)
              · refine cover_transfer hnd hl ?_ ?_ hc
                · intro p hp hne
                  exact mem_setPos_of_mem _ _ _ _ (mem_delPos_of_mem _ _ _ hp hne) hne
                · intro i hi
                  refine Or.inl (List.mem_append_right _ ?_)
                  simpa [involvedAll] using htrdid i (Or.inl hi)
        · -- full close without flip
          rw [close_against_full _ f pos hmin0 hfull (le_of_not_lt hrem)]
          refine ⟨nodupKeys_delPos _ _ hnd, ?_, ?_⟩
          · intro p hp
            exact hq p (mem_delPos _ _ _ hp)
          · intro id hid
            simp only [involvedAll_append]
            rcases List.mem_cons.1 hid with rfl | hid'
            · refine Or.inl (List.mem_append_right _ ?_)
              simp only [involvedAll, List.map_cons, List.map_nil, List.flatten_cons,
                List.flatten_nil, List.append_nil]
              exact htrdid f.execId (Or.inr rfl)
            · rcases hcov id hid' with hc | hc
              · exact Or.inl (List.mem_append_left _ hc)
              · refine cover_transfer hnd hl ?_ ?_ hc
                · intro p hp hne
                  exact mem_delPos_of_mem _ _ _ hp hne
                · intro i hi
                  refine Or.inl (List.mem_append_right _ ?_)
                  simpa [involvedAll] using htrdid i (Or.inl hi)

/-- The invariant holds after processing any fill list. -/
theorem inv_foldl (e : List String) (l : List Fill) (st : RState) (h : Inv st) :
    Inv (l.foldl (process_execution e) st) := by
  induction l generalizing st with
  | nil => exact h
  | cons g t ih => exact ih _ (inv_step e st g h)

theorem inv_parse (executions : List Fill) (existing_ids : List String) :
    Inv (parse_executions_to_trades executions existing_ids) :=
  inv_foldl existing_ids executions initState inv_init

/-- Lookup at a different key is unchanged by the opposite-side branch. -/
theorem close_against_lookup_ne (st1 : RState) (f : Fill) (pos : OpenPos) (s : String)
    (h : s ≠ f.symbol) :
    (close_against st1 f pos).open_positions.lookup s = st1.open_positions.lookup s := by
  simp only [close_against]
  split_ifs <;>
    simp [lookup_setPos_ne _ _ _ _ h, lookup_delPos_ne _ _ _ h]

/-! ## Claim theorems -/

/-! ### C1: the simple-full-close scenario -/

/-- The Buy fill of the C1 scenario: 1.5 SOL at 139.19, fee 0.05, at t1. -/
def c1_buy : Fill := ⟨"C1e1", "SOL", "Buy", 3/2, 13919/100, 1/20, 1000, "Market"⟩

/-- The Sell fill of the C1 scenario: 1.5 SOL at 141.80, fee 0.06, orderType
"TakeProfit", at t2 > t1. -/
def c1_sell : Fill := ⟨"C1e2", "SOL", "Sell", 3/2, 1418/10, 3/50, 2000, "TakeProfit"⟩

/-- Claim C1: on the batch [Buy 1.5 SOL @139.19 fee 0.05; Sell 1.5 SOL @141.80
fee 0.06 "TakeProfit"] with no already-seen ids, exactly one trade is emitted
with instrument SOL, direction Long ("Лонг"), closedQuantity 1.5,
averageExitPrice 141.80 and exitMethod "TakeProfit" — but its
averageEntryPrice is 0, not the claimed 139.19: the proportional reduction
zeroes `total_entry_value` and `total_entry_fees` before the average entry
price is computed from them. -/
theorem C1_simple_full_close :
    (parse_executions_to_trades [c1_buy, c1_sell] []).closed_trades =
      [⟨1000, 2000, "SOL", "Лонг", 0, 3/2, 0, 3/50, "TakeProfit", 709/5,
        ["C1e1", "C1e2"]⟩] := by
  with_unfolding_all rfl

/-! ### C2: average price times closed quantity -/

/-- C2 failing input, entry fill: Buy 2 at 50, fee 0. -/
def c2_buy : Fill := ⟨"C2a", "B", "Buy", 2, 50, 0, 1, "Market"⟩

/-- C2 failing input, exit fill: Sell 2 at 60, fee 0. -/
def c2_sell : Fill := ⟨"C2b", "B", "Sell", 2, 60, 0, 2, "Market"⟩

/-- Claim C2: the emitted trade has `averageEntryPrice * closedQuantity = 0`,
while the sum of `quantity*price` over its entry fills is `2 * 50 = 100`:
the entry value is proportionally zeroed before the average entry price is
computed, so the claimed identity fails. -/
theorem C2_avg_entry_price_identity_fails :
    ((parse_executions_to_trades [c2_buy, c2_sell] []).closed_trades.map
      (fun t => t.entry_price_avg * t.volume_coins)) = [0] ∧
    c2_buy.execQty * c2_buy.execPrice = 100 ∧ (0 : ℚ) ≠ 100 := by
  refine ⟨by with_unfolding_all rfl, by with_unfolding_all rfl, by norm_num⟩

/-! ### C3: closed quantity vs sum of matched quantities -/

/-- C3 failing input: Buy 2 at 100. -/
def c3_f1 : Fill := ⟨"C3a", "C", "Buy", 2, 100, 0, 1, "Market"⟩

/-- C3 failing input: first partial exit, Sell 1 at 100. -/
def c3_f2 : Fill := ⟨"C3b", "C", "Sell", 1, 100, 0, 2, "Market"⟩

/-- C3 failing input: final exit, Sell 1 at 100. -/
def c3_f3 : Fill := ⟨"C3c", "C", "Sell", 1, 100, 0, 3, "Limit"⟩

/-- Claim C3: closing a position of 2 by two Sell fills of 1 each emits one
trade whose `closedQuantity` is 1 — only the final fill's matched quantity —
while the sum of `min(fill quantity, remaining position quantity)` over the
matched opposite-side fills is `min 1 2 + min 1 1 = 2`. -/
theorem C3_closed_quantity_is_last_fill_only :
    ((parse_executions_to_trades [c3_f1, c3_f2, c3_f3] []).closed_trades.map
      (fun t => t.volume_coins)) = [1] ∧
    min c3_f2.execQty (2 : ℚ) + min c3_f3.execQty (1 : ℚ) = 2 ∧ (1 : ℚ) ≠ 2 := by
  refine ⟨by with_unfolding_all rfl, ?_, by norm_num⟩
  show min (1 : ℚ) 2 + min (1 : ℚ) 1 = 2
  norm_num

/-! ### C10: a flipping fill's id lands in two trades -/

/-- C10 input: Buy 1 at 100. -/
def c10_a : Fill := ⟨"C10a", "D", "Buy", 1, 100, 0, 1, "Market"⟩

/-- C10 input: Sell 2 at 100 — closes the long and flips to a short of 1. -/
def c10_b : Fill := ⟨"C10b", "D", "Sell", 2, 100, 0, 2, "Market"⟩

/-- C10 input: Buy 1 at 100 — closes the flipped short. -/
def c10_c : Fill := ⟨"C10c", "D", "Buy", 1, 100, 0, 3, "Market"⟩

/-- Claim C10: the flipping fill "C10b" appears in the involved ids of the
trade emitted at the flip, is recorded as the entry id of the newly opened
flipped (Sell) position, and, once that position is closed by "C10c", the
same id appears in the involved ids of both emitted trades. -/
theorem C10_flip_id_shared_across_trades :
    ((parse_executions_to_trades [c10_a, c10_b, c10_c] []).closed_trades.map
      (fun t => t.involved_exec_ids)) = [["C10a", "C10b"], ["C10b", "C10c"]] ∧
    (parse_executions_to_trades [c10_a, c10_b] []).open_positions.lookup "D" =
      some ⟨"Sell", 1, 100, 0, 2, 2, ["C10b"], 0, 0, [], 0, ""⟩ := by
  refine ⟨by with_unfolding_all rfl, by with_unfolding_all rfl⟩

/-! ### C9: invalid fills are skipped and affect nothing -/

/-- Claim C9: a fill with missing instrument or side, non-positive quantity or
price, or zero timestamp is skipped without aborting the batch, and the whole
run result (trades and final open positions) equals the run on the input with
that fill removed. -/
theorem C9_invalid_fill_removed (l1 l2 : List Fill) (f : Fill)
    (existing_ids : List String) (h : invalid_fill f) :
    parse_executions_to_trades (l1 ++ f :: l2) existing_ids =
      parse_executions_to_trades (l1 ++ l2) existing_ids := by
  unfold parse_executions_to_trades
  rw [List.foldl_append, List.foldl_append, List.foldl_cons,
    process_execution_invalid existing_ids _ f h]

/-- C9 witness: a zero-quantity fill inserted between two valid fills changes
nothing. -/
theorem C9_witness :
    invalid_fill ⟨"C9x", "SOL", "Buy", 0, 100, 0, 5, "Market"⟩ ∧
    parse_executions_to_trades
        ([⟨"C9a", "SOL", "Buy", 1, 100, 0, 1, "Market"⟩] ++
          ⟨"C9x", "SOL", "Buy", 0, 100, 0, 5, "Market"⟩ ::
            [⟨"C9b", "SOL", "Sell", 1, 101, 0, 2, "Market"⟩]) [] =
      parse_executions_to_trades
        ([⟨"C9a", "SOL", "Buy", 1, 100, 0, 1, "Market"⟩] ++
          [⟨"C9b", "SOL", "Sell", 1, 101, 0, 2, "Market"⟩]) [] :=
  ⟨Or.inr (Or.inr (Or.inl le_rfl)),
    C9_invalid_fill_removed _ _ _ [] (Or.inr (Or.inr (Or.inl le_rfl)))⟩

/-! ### C6: flip correctness -/

/-- Claim C6: for every open Long ("Buy") position with `total_qty = 10`
(whatever its entry fills, prices and fees), a single valid, unseen Sell fill
of quantity 15 emits exactly one ClosedTrade with closedQuantity 10 and, in
the same step, opens a Short ("Sell") position with `total_qty = 5`, seeded
with the fill's fee prorated to the residual (`fee / 15 * 5`). -/
theorem C6_flip_long10_sell15 (existing_ids : List String) (st : RState)
    (f : Fill) (pos : OpenPos)
    (hid : f.execId ≠ "") (hidE : f.execId ∉ existing_ids)
    (hidP : f.execId ∉ st.processed_exec_ids) (hvalid : ¬ invalid_fill f)
    (hl : st.open_positions.lookup f.symbol = some pos)
    (hbuy : pos.side = "Buy") (hsell : f.side = "Sell")
    (hq10 : pos.total_qty = 10) (hq15 : f.execQty = 15) :
    (∃ t, (process_execution existing_ids st f).closed_trades =
        st.closed_trades ++ [t] ∧ t.volume_coins = 10) ∧
    ∃ newPos,
      (process_execution existing_ids st f).open_positions.lookup f.symbol = some newPos ∧
      newPos.side = "Sell" ∧ newPos.total_qty = 5 ∧
      newPos.total_entry_fees = f.execFee / 15 * 5 := by
  have h1 : ¬ (f.execId = "" ∨ f.execId ∈ existing_ids ∨
      f.execId ∈ st.processed_exec_ids) := by
    push_neg
    exact ⟨hid, hidE, hidP⟩
  have hside : ¬ f.side = pos.side := by
    rw [hsell, hbuy]
    simp
  have hmin : min f.execQty pos.total_qty = 10 := by
    rw [hq15, hq10]
    exact min_eq_right (by norm_num)
  have hmin0 : 0 < min f.execQty pos.total_qty := by
    rw [hmin]
    norm_num
  have hrem : QTY_TOLERANCE < f.execQty - min f.execQty pos.total_qty := by
    rw [hmin, hq15]
    norm_num [QTY_TOLERANCE]
  rw [process_execution_opposite existing_ids st f pos h1 hvalid hl hside,
    close_against_flip _ f pos hmin0 hrem]
  constructor
  · refine ⟨_, rfl, ?_⟩
    rw [make_closed_trade_volume, hmin]
    with_unfolding_all rfl
  · refine ⟨_, lookup_setPos_self _ _ _, ?_, ?_, ?_⟩
    · rw [flip_position_side, hsell]
    · rw [flip_position_total_qty, hmin, hq15]
      norm_num
    · show (if 0 < f.execQty then f.execFee / f.execQty * (f.execQty - min f.execQty pos.total_qty)
          else 0) = f.execFee / 15 * 5
      rw [hmin, hq15, if_pos (by norm_num : (0:ℚ) < 15)]
      norm_num

/-- C6 witness: the Long position that 10 SOL-at-140 entries built. -/
def c6_pos : OpenPos := ⟨"Buy", 10, 1400, 1/10, 1, 1, ["C6e1"], 0, 0, [], 0, ""⟩

/-- C6 witness state: one open position for "SOL". -/
def c6_st : RState := ⟨[], [("SOL", c6_pos)], []⟩

/-- C6 witness fill: Sell 15 SOL at 150 with fee 0.3. -/
def c6_fill : Fill := ⟨"C6e2", "SOL", "Sell", 15, 150, 3/10, 2, "Market"⟩

/-- C6 witness: the flip theorem applied at a concrete Long-10 position and a
concrete Sell-15 fill. -/
theorem C6_witness :
    (∃ t, (process_execution [] c6_st c6_fill).closed_trades =
        c6_st.closed_trades ++ [t] ∧ t.volume_coins = 10) ∧
    ∃ newPos,
      (process_execution [] c6_st c6_fill).open_positions.lookup c6_fill.symbol = some newPos ∧
      newPos.side = "Sell" ∧ newPos.total_qty = 5 ∧
      newPos.total_entry_fees = c6_fill.execFee / 15 * 5 :=
  C6_flip_long10_sell15 [] c6_st c6_fill c6_pos
    (by decide) (by simp) (by simp [c6_st]) (by with_unfolding_all decide)
    (by with_unfolding_all rfl) rfl rfl rfl rfl

/-! ### C8: partial close preserves the average entry price -/

/-- Claim C8: an opposite-side fill whose matched quantity leaves strictly
more than the tolerance open emits no trade, and the proportional reduction
of `total_entry_value` and `total_entry_fees` preserves the average entry
price of the remaining quantity as an exact rational identity. -/
theorem C8_partial_close_preserves_avg_entry (existing_ids : List String)
    (st : RState) (f : Fill) (pos : OpenPos)
    (hid : f.execId ≠ "") (hidE : f.execId ∉ existing_ids)
    (hidP : f.execId ∉ st.processed_exec_ids) (hvalid : ¬ invalid_fill f)
    (hl : st.open_positions.lookup f.symbol = some pos)
    (hside : ¬ f.side = pos.side)
    (hpart : QTY_TOLERANCE < pos.total_qty - min f.execQty pos.total_qty) :
    (process_execution existing_ids st f).closed_trades = st.closed_trades ∧
    ∃ pos',
      (process_execution existing_ids st f).open_positions.lookup f.symbol = some pos' ∧
      pos'.total_qty = pos.total_qty - min f.execQty pos.total_qty ∧
      pos'.total_entry_value / pos'.total_qty =
        pos.total_entry_value / pos.total_qty ∧
      pos'.total_entry_fees / pos'.total_qty =
        pos.total_entry_fees / pos.total_qty := by
  have h1 : ¬ (f.execId = "" ∨ f.execId ∈ existing_ids ∨
      f.execId ∈ st.processed_exec_ids) := by
    push_neg
    exact ⟨hid, hidE, hidP⟩
  have hqty : 0 < f.execQty := by
    rcases lt_or_le 0 f.execQty with h' | h'
    · exact h'
    · exact absurd (Or.inr (Or.inr (Or.inl h'))) hvalid
  have hptot : 0 < pos.total_qty := by
    rcases lt_or_le 0 pos.total_qty with h' | h'
    · exact h'
    · exfalso
      rw [min_eq_right (le_trans h' (le_of_lt hqty))] at hpart
      have := qty_tolerance_pos
      linarith
  have hmin0 : 0 < min f.execQty pos.total_qty := lt_min hqty hptot
  rw [process_execution_opposite existing_ids st f pos h1 hvalid hl hside,
    close_against_reduce _ f pos hmin0 hpart]
  refine ⟨rfl, _, lookup_setPos_self _ _ _, by simp, ?_, ?_⟩
  · simp only [reduce_position_total_entry_value, reduce_position_total_qty,
      exit_position_total_entry_value, exit_position_total_qty]
    have hq0 : pos.total_qty ≠ 0 := ne_of_gt hptot
    have hqc : pos.total_qty - min f.execQty pos.total_qty ≠ 0 :=
      ne_of_gt (lt_trans qty_tolerance_pos hpart)
    field_simp
    ring
  · simp only [reduce_position_total_entry_fees, reduce_position_total_qty,
      exit_position_total_entry_fees, exit_position_total_qty]
    have hq0 : pos.total_qty ≠ 0 := ne_of_gt hptot
    have hqc : pos.total_qty - min f.execQty pos.total_qty ≠ 0 :=
      ne_of_gt (lt_trans qty_tolerance_pos hpart)
    field_simp
    ring

/-- C8 witness position: Long 3 with entry value 300 and entry fees 0.3. -/
def c8_pos : OpenPos := ⟨"Buy", 3, 300, 3/10, 1, 1, ["C8e1"], 0, 0, [], 0, ""⟩

/-- C8 witness state. -/
def c8_st : RState := ⟨[], [("ETH", c8_pos)], []⟩

/-- C8 witness fill: Sell 1 at 120. -/
def c8_fill : Fill := ⟨"C8e2", "ETH", "Sell", 1, 120, 1/20, 2, "Market"⟩

/-- C8 witness: the partial-close theorem applied at a concrete position and
fill. -/
theorem C8_witness :
    (process_execution [] c8_st c8_fill).closed_trades = c8_st.closed_trades ∧
    ∃ pos',
      (process_execution [] c8_st c8_fill).open_positions.lookup c8_fill.symbol = some pos' ∧
      pos'.total_qty = c8_pos.total_qty - min c8_fill.execQty c8_pos.total_qty ∧
      pos'.total_entry_value / pos'.total_qty =
        c8_pos.total_entry_value / c8_pos.total_qty ∧
      pos'.total_entry_fees / pos'.total_qty =
        c8_pos.total_entry_fees / c8_pos.total_qty :=
  C8_partial_close_preserves_avg_entry [] c8_st c8_fill c8_pos
    (by decide) (by simp) (by simp [c8_st]) (by with_unfolding_all decide)
    (by with_unfolding_all rfl) (by simp [c8_pos, c8_fill])
    (by with_unfolding_all decide)

/-! ### C7: position-map invariants -/

/-- The run invariant holds at every intermediate state of the scan. -/
theorem inv_scanl (e : List String) (l : List Fill) :
    ∀ st ∈ l.scanl (process_execution e) initState, Inv st := by
  suffices h : ∀ b : RState, Inv b → ∀ st ∈ l.scanl (process_execution e) b, Inv st by
    exact h initState inv_init
  induction l with
  | nil =>
    intro b hb st hst
    rw [List.scanl_nil] at hst
    rcases List.mem_singleton.1 hst with rfl
    exact hb
  | cons f t ih =>
    intro b hb st hst
    rw [List.scanl_cons] at hst
    rcases List.mem_cons.1 hst with rfl | hst'
    · exact hb
    · exact ih _ (inv_step e b f hb) st hst'

/-- Claim C7: at every step of processing a fill sequence the position map
holds at most one position per instrument (key-nodup) with nonnegative
`total_qty`, and a step shrinks the quantity stored for an instrument only
when the processed fill targets that instrument on the opposite side. -/
theorem C7_position_invariants (existing_ids : List String) (l : List Fill) :
    (∀ st ∈ l.scanl (process_execution existing_ids) initState,
        (st.open_positions.map Prod.fst).Nodup ∧
          ∀ p ∈ st.open_positions, 0 ≤ p.2.total_qty) ∧
    (∀ (st : RState) (f : Fill) (s : String) (pos pos' : OpenPos),
        st.open_positions.lookup s = some pos →
        (process_execution existing_ids st f).open_positions.lookup s = some pos' →
        pos'.total_qty < pos.total_qty →
        f.symbol = s ∧ f.side ≠ pos.side) := by
  constructor
  · intro st hst
    obtain ⟨hnd, hq, -⟩ := inv_scanl existing_ids l st hst
    exact ⟨hnd, fun p hp => le_of_lt (hq p hp)⟩
  · intro st f s pos pos' hpos hpos' hlt
    by_cases h1 : f.execId = "" ∨ f.execId ∈ existing_ids ∨
        f.execId ∈ st.processed_exec_ids
    · rw [process_execution_skip _ _ _ h1, hpos] at hpos'
      cases Option.some.inj hpos'
      exact absurd hlt (lt_irrefl _)
    by_cases h2 : invalid_fill f
    · rw [process_execution_invalid _ _ _ h2, hpos] at hpos'
      cases Option.some.inj hpos'
      exact absurd hlt (lt_irrefl _)
    have hqty : 0 < f.execQty := by
      rcases lt_or_le 0 f.execQty with h' | h'
      · exact h'
      · exact absurd (Or.inr (Or.inr (Or.inl h'))) h2
    rcases hl : st.open_positions.lookup f.symbol with _ | posf
    · by_cases hs : s = f.symbol
      · rw [hs, hl] at hpos
        cases hpos
      · rw [process_execution_none existing_ids st f h1 h2 hl] at hpos'
        rw [show ({ st with
            processed_exec_ids := f.execId :: st.processed_exec_ids,
            open_positions := setPos f.symbol (initial_position f) st.open_positions } :
            RState).open_positions =
            setPos f.symbol (initial_position f) st.open_positions from rfl] at hpos'
        rw [lookup_setPos_ne _ _ _ _ hs, hpos] at hpos'
        cases Option.some.inj hpos'
        exact absurd hlt (lt_irrefl _)
    · by_cases hside : f.side = posf.side
      · rw [process_execution_same_side existing_ids st f posf h1 h2 hl hside] at hpos'
        rw [show ({ st with
            processed_exec_ids := f.execId :: st.processed_exec_ids,
            open_positions := setPos f.symbol (increase_position posf f) st.open_positions } :
            RState).open_positions =
            setPos f.symbol (increase_position posf f) st.open_positions from rfl] at hpos'
        by_cases hs : s = f.symbol
        · subst hs
          rw [lookup_setPos_self] at hpos'
          rw [hl] at hpos
          cases Option.some.inj hpos
          cases Option.some.inj hpos'
          simp only [increase_position_total_qty] at hlt
          linarith
        · rw [lookup_setPos_ne _ _ _ _ hs, hpos] at hpos'
          cases Option.some.inj hpos'
          exact absurd hlt (lt_irrefl _)
      · rw [process_execution_opposite existing_ids st f posf h1 h2 hl hside] at hpos'
        by_cases hs : s = f.symbol
        · subst hs
          rw [hl] at hpos
          cases Option.some.inj hpos
          exact ⟨rfl, fun heq => hside heq⟩
        · rw [close_against_lookup_ne _ _ _ _ hs] at hpos'
          rw [show ({ st with
              processed_exec_ids := f.execId :: st.processed_exec_ids } :
              RState).open_positions = st.open_positions from rfl, hpos] at hpos'
          cases Option.some.inj hpos'
          exact absurd hlt (lt_irrefl _)

/-- C7 witness position: Long 2 on instrument "A". -/
def c7_pos : OpenPos := ⟨"Buy", 2, 200, 0, 1, 1, ["C7e1"], 0, 0, [], 0, ""⟩

/-- C7 witness state. -/
def c7_st : RState := ⟨[], [("A", c7_pos)], []⟩

/-- C7 witness fill: Sell 1 against the Long 2. -/
def c7_fill : Fill := ⟨"C7e2", "A", "Sell", 1, 100, 0, 5, "Market"⟩

/-- The position after the witness step: reduced to quantity 1 with the exit
accumulated. -/
def c7_pos2 : OpenPos := ⟨"Buy", 1, 100, 0, 1, 1, ["C7e1"], 100, 0, ["C7e2"], 5, "Market"⟩

/-- C7 witness: both parts of the invariant theorem applied at concrete
inputs — the initial scan state, and a concrete quantity-decreasing step. -/
theorem C7_witness :
    ((initState.open_positions.map Prod.fst).Nodup ∧
      ∀ p ∈ initState.open_positions, 0 ≤ p.2.total_qty) ∧
    (c7_fill.symbol = "A" ∧ c7_fill.side ≠ c7_pos.side) :=
  ⟨(C7_position_invariants [] []).1 initState (by simp),
    (C7_position_invariants [] []).2 c7_st c7_fill "A" c7_pos c7_pos2
      (by with_unfolding_all rfl) (by with_unfolding_all rfl)
      (by norm_num [c7_pos, c7_pos2])⟩

/-! ### C5: idempotence on the second run -/

/-- C5 counterexample input: a flip ("C5b") whose flipped Short is then
partly exited ("C5c") and re-entered ("C5d"), leaving it open. -/
def c5_fills : List Fill :=
  [⟨"C5a", "A", "Buy", 1, 100, 0, 1, "Market"⟩,
   ⟨"C5b", "A", "Sell", 5, 100, 0, 2, "Market"⟩,
   ⟨"C5c", "A", "Buy", 2, 100, 0, 3, "Market"⟩,
   ⟨"C5d", "A", "Sell", 2, 100, 0, 4, "Market"⟩]

/-- Claim C5 is false as stated: on `c5_fills` with an empty seen-set, the
first run emits one trade (ids C5a, C5b) and leaves a Short open; a second
run whose seen-set additionally contains all involved ids of that trade
emits one further trade (from C5c and C5d, which the first run had matched
against the flip-seeded Short built from the now-skipped C5b), not zero. -/
theorem C5_counterexample :
    (parse_executions_to_trades c5_fills
        ([] ++ involvedAll
          (parse_executions_to_trades c5_fills []).closed_trades)).closed_trades ≠ [] := by
  with_unfolding_all decide

/-- Claim C5 (amended): if the first run leaves no open positions, then a
second run over the same fills, with the seen-set extended by every execution
id involved in the first run's emitted trades, emits zero trades. -/
theorem C5_idempotent_of_no_open_positions (F : List Fill) (S : List String)
    (hclosed : (parse_executions_to_trades F S).open_positions = []) :
    (parse_executions_to_trades F
        (S ++ involvedAll (parse_executions_to_trades F S).closed_trades)).closed_trades
      = [] := by
  obtain ⟨-, -, hcov⟩ := inv_parse F S
  rw [hclosed] at hcov
  have hskip : ∀ f ∈ F,
      skip_fill (S ++ involvedAll (parse_executions_to_trades F S).closed_trades) f := by
    intro f hf
    by_cases hid : f.execId = ""
    · exact Or.inl hid
    by_cases hv : invalid_fill f
    · exact Or.inr (Or.inr hv)
    by_cases hS : f.execId ∈ S
    · exact Or.inr (Or.inl (List.mem_append_left _ hS))
    · have hproc : f.execId ∈ (parse_executions_to_trades F S).processed_exec_ids :=
        foldl_processes S F initState f hf hid hS hv
      rcases hcov _ hproc with hc | hc
      · exact Or.inr (Or.inl (List.mem_append_right _ hc))
      · simp [posIds] at hc
  show (F.foldl
      (process_execution (S ++ involvedAll (parse_executions_to_trades F S).closed_trades))
      initState).closed_trades = []
  rw [foldl_skip_all _ F initState hskip]
  rfl

/-- C5 witness fills: one full close, nothing left open. -/
def c5w_fills : List Fill :=
  [⟨"C5w1", "W", "Buy", 1, 100, 0, 1, "Market"⟩,
   ⟨"C5w2", "W", "Sell", 1, 101, 0, 2, "Market"⟩]

/-- C5 witness: the amended idempotence theorem applied to a concrete run
that closes everything. -/
theorem C5_witness :
    (parse_executions_to_trades c5w_fills
        ([] ++ involvedAll
          (parse_executions_to_trades c5w_fills []).closed_trades)).closed_trades = [] :=
  C5_idempotent_of_no_open_positions c5w_fills [] (by with_unfolding_all rfl)

/-! ### C4: ordering independence -/

/-- C4 counterexample fill: Buy 1 at 100, t = 1000. -/
def c4_buy : Fill := ⟨"C4a", "SOL", "Buy", 1, 100, 0, 1000, "Market"⟩

/-- C4 counterexample fill: Sell 1 at 110, t = 2000. -/
def c4_sell : Fill := ⟨"C4b", "SOL", "Sell", 1, 110, 0, 2000, "Market"⟩

/-- Claim C4 is false as stated: `parse_executions_to_trades` does not re-sort
its input.  The reversed batch is a permutation of the timestamp-sorted one,
yet the reconciler run on it emits a Short trade instead of the Long trade it
emits on the sorted batch. -/
theorem C4_counterexample :
    [c4_sell, c4_buy].Perm [c4_buy, c4_sell] ∧
    sort_executions_by_time [c4_buy, c4_sell] = [c4_buy, c4_sell] ∧
    (parse_executions_to_trades [c4_sell, c4_buy] []).closed_trades ≠
      (parse_executions_to_trades (sort_executions_by_time [c4_buy, c4_sell])
        []).closed_trades := by
  have hsort : sort_executions_by_time [c4_buy, c4_sell] = [c4_buy, c4_sell] :=
    List.mergeSort_of_sorted (by decide)
  refine ⟨List.Perm.swap c4_buy c4_sell [], hsort, ?_⟩
  rw [hsort]
  with_unfolding_all decide

/-- Claim C4 (amended): the reconciler itself is order-sensitive; the
timestamp sort happens in `fetch_bybit_executions` before it runs.  For a
batch with pairwise-distinct timestamps, sorting any permutation yields the
same list, so sort-then-reconcile gives the same trades for every shuffle. -/
theorem C4_sort_then_parse_perm_invariant (l l' : List Fill) (S : List String)
    (hperm : l.Perm l') (hnd : (l.map Fill.execTime).Nodup) :
    parse_executions_to_trades (sort_executions_by_time l') S =
      parse_executions_to_trades (sort_executions_by_time l) S := by
  suffices h : sort_executions_by_time l' = sort_executions_by_time l by rw [h]
  have htrans : ∀ a b c : Fill, decide (a.execTime ≤ b.execTime) = true →
      decide (b.execTime ≤ c.execTime) = true →
      decide (a.execTime ≤ c.execTime) = true := by
    intro a b c h1 h2
    simp only [decide_eq_true_eq] at h1 h2 ⊢
    omega
  have htotal : ∀ a b : Fill, (decide (a.execTime ≤ b.execTime) ||
      decide (b.execTime ≤ a.execTime)) = true := by
    intro a b
    simpa using Nat.le_total a.execTime b.execTime
  have hperm' : sort_executions_by_time l' |>.Perm (sort_executions_by_time l) :=
    ((List.mergeSort_perm l' _).trans
      (hperm.symm.trans (List.mergeSort_perm l _).symm))
  have hstrict : ∀ m : List Fill, m.Perm l →
      List.Pairwise (fun a b : Fill => a.execTime < b.execTime)
        (sort_executions_by_time m) := by
    intro m hm
    have hsorted : List.Pairwise
        (fun a b : Fill => a.execTime ≤ b.execTime) (sort_executions_by_time m) :=
      (List.sorted_mergeSort htrans htotal m).imp (fun h => by simpa using h)
    have hndm : ((sort_executions_by_time m).map Fill.execTime).Nodup := by
      refine (List.Perm.nodup_iff ?_).2 hnd
      exact ((List.mergeSort_perm m _).trans hm).map Fill.execTime
    have hne : List.Pairwise (fun a b : Fill => a.execTime ≠ b.execTime)
        (sort_executions_by_time m) := List.pairwise_map.1 hndm
    exact (hsorted.and hne).imp (fun h => lt_of_le_of_ne h.1 h.2)
  haveI : IsAntisymm Fill (fun a b : Fill => a.execTime < b.execTime) :=
    ⟨fun a b h1 h2 => absurd (h1.trans h2) (lt_irrefl _)⟩
  exact List.eq_of_perm_of_sorted hperm'
    (hstrict l' hperm.symm) (hstrict l (List.Perm.refl l))

/-- C4 witness fill at t = 10. -/
def c4w_1 : Fill := ⟨"C4w1", "X", "Buy", 1, 100, 0, 10, "Market"⟩

/-- C4 witness fill at t = 20. -/
def c4w_2 : Fill := ⟨"C4w2", "X", "Sell", 1, 105, 0, 20, "Market"⟩

/-- C4 witness: the amended theorem applied to a concrete two-fill shuffle
with distinct timestamps. -/
theorem C4_witness :
    parse_executions_to_trades (sort_executions_by_time [c4w_2, c4w_1]) [] =
      parse_executions_to_trades (sort_executions_by_time [c4w_1, c4w_2]) [] :=
  C4_sort_then_parse_perm_invariant [c4w_1, c4w_2] [c4w_2, c4w_1] []
    (List.Perm.swap c4w_2 c4w_1 []) (by decide)

end Bybit
